import Mathlib

/-
Verification development for the jobcoin mixer (python/jobcoin).

The embedding below is a shallow model of `jobcoin/api.py` and
`jobcoin/jobcoin.py`:

* Python `Fraction` values are `ℚ`.
* Python `datetime` instants are `ℤ` (milliseconds since the Unix epoch;
  `datetime(1970, 1, 1, tzinfo=utc)` is `0`; comparison of datetimes is
  comparison of integers).
* Python `Decimal` values are modelled by the exact rational they denote.
  The default decimal context (precision 28 significant digits, rounding
  ROUND_HALF_EVEN) is modelled by `decRound28`: division
  `Decimal(a)/Decimal(b)` denotes `decRound28 (a / b)` and multiplication
  denotes `decRound28 (x * y)` (exact results of at most 28 significant
  digits are kept exact, otherwise the exact value is rounded half-even at
  the 28th significant digit), and `quantize(Decimal("0.01"))` denotes
  `quantize2`.
* `str`/`Fraction` conversions of decimals are value-faithful: `str` of a
  `Decimal` prints its exact value and `Fraction(<decimal string>)` parses
  it back exactly, so `Fraction(frac2str(x))` denotes `frac2strVal x`.
* The async loops in `jobcoin.py` are modelled one iteration at a time as
  pure functions of the fetched data; failing `assert` statements become
  `Except.error` results.
-/

namespace Jobcoin

set_option maxRecDepth 4000

/-- Number of decimal digits of a natural number (1 digit for 0). Used to
model the position of the most significant digit in decimal rounding. -/
def digits10 (n : ℕ) : ℕ :=
  if n < 10 then 1 else digits10 (n / 10) + 1
termination_by n
decreasing_by exact Nat.div_lt_self (by omega) (by omega)

/-- `tenPow s` is the rational `10 ^ s` for an integer exponent `s`. -/
def tenPow (s : ℤ) : ℚ := (10 : ℚ) ^ s

/-- Decides `10 ^ 27 * d ≤ n * 10 ^ s` over the integers (for `s` possibly
negative), i.e. whether `n / d` scaled by `10 ^ s` has reached 28 significant
digits. -/
def geCheck (n d : ℕ) (s : ℤ) : Bool :=
  if 0 ≤ s then decide (10 ^ 27 * d ≤ n * 10 ^ s.toNat)
  else decide (10 ^ 27 * d * 10 ^ (-s).toNat ≤ n)

/-- The scaling exponent `s` such that `(n / d) * 10 ^ s` lies in
`[10 ^ 27, 10 ^ 28)`: the digit counts of `n` and `d` give a candidate that
is correct or one too small, and `geCheck` picks the right one. -/
def scale (n d : ℕ) : ℤ :=
  let s1 : ℤ := 27 - (digits10 n : ℤ) + (digits10 d : ℤ)
  if geCheck n d s1 then s1 else s1 + 1

/-- Round a rational to the nearest integer, ties to even
(Python decimal's ROUND_HALF_EVEN). -/
def rhe (x : ℚ) : ℤ :=
  let f := Int.ediv x.num x.den
  let r := Int.emod x.num x.den
  if 2 * r < (x.den : ℤ) then f
  else if (x.den : ℤ) < 2 * r then f + 1
  else if Int.emod f 2 = 0 then f else f + 1

/-- The value produced by Python's default decimal context for an exact
rational result: kept exact when representable in at most 28 significant
decimal digits, otherwise rounded half-even at the 28th significant digit.
`Decimal(a)/Decimal(b)` denotes `decRound28 (a/b)` and `x * y` (on decimals)
denotes `decRound28 (x*y)`. -/
def decRound28 (q : ℚ) : ℚ :=
  if q = 0 then 0
  else
    let s := scale q.num.natAbs q.den
    let c0 : ℚ := |q| * tenPow s
    let v : ℚ := if c0.den = 1 then |q| else (rhe c0 : ℚ) / tenPow s
    if q < 0 then -v else v

/-- Value denoted by the string `frac2str(frac)` of `api.py`:
`str(Decimal(frac.numerator) / Decimal(frac.denominator))`. The division is
performed in the default 28-digit context and `str` prints the resulting
decimal exactly, so the denoted value is `decRound28 frac`. Parsing the
printed string with `Fraction(...)` is exact, so
`Fraction(frac2str(x)) == x` holds exactly when `frac2strVal x = x`. -/
def frac2strVal (frac : ℚ) : ℚ := decRound28 frac

/-- Product of two decimals in the default 28-digit context. -/
def decMul (x y : ℚ) : ℚ := decRound28 (x * y)

/-- `jitter_value.quantize(Decimal("0.01"))`: round to two decimal places,
half to even (the default context rounding). -/
def quantize2 (x : ℚ) : ℚ := (rhe (x * 100) : ℚ) / 100

/-- Addresses are strings (`AddrT = str` in `api.py`). -/
abbrev AddrT := String

/-- `api.py` `Transaction`: timestamp, exact rational amount, destination
address and optional source address (`None` for external funding events). -/
structure Transaction where
  timestamp : ℤ
  amount : ℚ
  to_addr : AddrT
  from_addr : Option AddrT := none
deriving DecidableEq, Repr

/-- An HTTP response as seen by `Api.post_transfer`: its status code, and
whether the response object is an instance of `aiohttp.web.HTTPException`. -/
structure ClientResponse where
  status : ℕ
  isHTTPException : Bool
deriving DecidableEq, Repr

/-- A response produced by `aiohttp.ClientSession.post` is an
`aiohttp.ClientResponse`, which is not a subclass of the server-side
`aiohttp.web.HTTPException`, whatever its status code: the
`isinstance(resp, HTTPException)` test in `Api.post_transfer` is always
false for it. -/
def clientResponse (status : ℕ) : ClientResponse :=
  { status := status, isHTTPException := false }

/-- Errors `Api.post_transfer` can raise. -/
inductive ApiError where
  | insufficientFunds
  | transport
deriving DecidableEq, Repr

/-- `Api.post_transfer` of `api.py`, as a function of the ledger's response:
raises `InsufficientFundsError` on status 422, re-raises the response if it
is an `HTTPException`, and otherwise returns successfully. -/
def post_transfer (resp : ClientResponse) : Except ApiError Unit :=
  if resp.status = 422 then .error .insufficientFunds
  else if resp.isHTTPException then .error .transport
  else .ok ()

/-- The `recv_addr_to_wthd_addrs` mapping of `disburse_task`: receive
addresses (in insertion order, as for a Python dict) each with their set of
withdrawal addresses (a Python `set`, here a duplicate-free list in some
fixed iteration order). -/
abbrev Registry := List (AddrT × List AddrT)

/-- The two `assert` statements guarding the construction of
`wthd_addr_to_recv_addr`: every withdrawal set is non-empty, and no
withdrawal address is claimed by two entries (within one entry duplicates
cannot occur, the Python value being a set). -/
def registryOk (reg : Registry) : Prop :=
  (∀ p ∈ reg, p.2 ≠ []) ∧ ((reg.map Prod.snd).flatten).Nodup

instance (reg : Registry) : Decidable (registryOk reg) := by
  unfold registryOk; infer_instance

/-- Python truthiness of the optional `from_addr` field:
`None` and the empty string are falsy. -/
def fromTruthy : Option AddrT → Option AddrT
  | none => none
  | some s => if s = "" then none else some s

/-- The test `transaction.from_addr and transaction.from_addr in
recv_addr_to_wthd_addrs`: returns the sending receive address when the
transaction is an incoming deposit sweep from a known receive address. -/
def depositFrom (reg : Registry) (t : Transaction) : Option AddrT :=
  match fromTruthy t.from_addr with
  | some f => if f ∈ reg.map Prod.fst then some f else none
  | none => none

/-- Lookup in `wthd_addr_to_recv_addr`: the receive address owning a given
withdrawal address (the first matching entry; under `registryOk` there is at
most one). -/
def wthdOwner (reg : Registry) (w : AddrT) : Option AddrT :=
  (reg.find? (fun p => w ∈ p.2)).map Prod.fst

/-- Lookup `recv_addr_to_wthd_addrs[recv_addr]` (empty list if absent). -/
def regWthds (reg : Registry) (a : AddrT) : List AddrT :=
  ((reg.find? (fun p => p.1 = a)).map Prod.snd).getD []

/-- The in-memory state of one `disburse_task` watcher: `unpaid_receipts`
(a dict in insertion order, with rational owed amounts), the
`reconciled_transactions` set (a list up to membership), and
`newest_transaction_dt`. -/
structure RState where
  unpaid : List (AddrT × ℚ)
  reconciled : List Transaction
  newest : ℤ
deriving DecidableEq, Repr

/-- State at watcher start: empty receipts, empty reconciled set, and
`newest_transaction_dt = datetime(1970, 1, 1, tzinfo=utc)`, i.e. the epoch. -/
def initialState : RState :=
  { unpaid := [], reconciled := [], newest := 0 }

/-- `unpaid_receipts[a] += q` on a `defaultdict(Fraction)`: update the entry
in place if the key is present (keeping dict order), otherwise append a new
entry whose value starts at the default `Fraction(0)`. -/
def bump (m : List (AddrT × ℚ)) (a : AddrT) (q : ℚ) : List (AddrT × ℚ) :=
  match m with
  | [] => [(a, q)]
  | (b, v) :: rest => if b = a then (b, v + q) :: rest else (b, v) :: bump rest a q

/-- The dict comprehension dropping entries whose owed balance is zero. -/
def pruneUnpaid (m : List (AddrT × ℚ)) : List (AddrT × ℚ) :=
  m.filter (fun p => p.2 ≠ 0)

/-- `sum(unpaid_receipts.values(), start=Fraction(0))`. -/
def sumUnpaid (m : List (AddrT × ℚ)) : ℚ :=
  (m.map Prod.snd).sum

/-- `reconciled_transactions.add(transaction)`: a no-op when the transaction
is already a member. -/
def insertTx (l : List Transaction) (t : Transaction) : List Transaction :=
  if t ∈ l then l else t :: l

/-- Ways one reconciler iteration can die with an `AssertionError`. -/
inductive StepError where
  | depositNotToHouse
  | payoutNotFromHouse
  | badRegistry
  | insolvent
deriving DecidableEq, Repr

/-- The body of the `for transaction in house_balance.transactions` loop of
`disburse_task`: skip transactions already reconciled; credit deposits from
known receive addresses (asserting they pay the house address) and advance
`newest_transaction_dt`; debit observed payouts to known withdrawal
addresses (asserting they come from the house address); ignore anything
else; and add the transaction to the reconciled set. -/
def foldTx (reg : Registry) (house : AddrT) (s : RState) (t : Transaction) :
    Except StepError RState :=
  if t ∈ s.reconciled then .ok { s with reconciled := insertTx s.reconciled t }
  else
    match depositFrom reg t with
    | some f =>
        if t.to_addr = house then
          .ok { unpaid := bump s.unpaid f t.amount,
                reconciled := insertTx s.reconciled t,
                newest := max s.newest t.timestamp }
        else .error .depositNotToHouse
    | none =>
        match wthdOwner reg t.to_addr with
        | some r =>
            if t.from_addr = some house then
              .ok { unpaid := bump s.unpaid r (-t.amount),
                    reconciled := insertTx s.reconciled t,
                    newest := s.newest }
            else .error .payoutNotFromHouse
        | none => .ok { s with reconciled := insertTx s.reconciled t }

/-- Folding a fetched transaction history into the state, first to last. -/
def foldHist (reg : Registry) (house : AddrT) (s : RState) :
    List Transaction → Except StepError RState
  | [] => .ok s
  | t :: ts =>
      match foldTx reg house s t with
      | .ok s₁ => foldHist reg house s₁ ts
      | .error e => .error e

/-- One reconciler iteration up to and including the solvency check, as a
function of the fetched house balance `bal` and history `hist`: check the
registry, fold the history, prune zero entries, assert
`total_unpaid <= house_balance.balance`, and report (as the returned flag)
whether the surplus warning `house_balance.balance > total_unpaid` was
logged. -/
def reconcile (reg : Registry) (house : AddrT) (s : RState)
    (hist : List Transaction) (bal : ℚ) : Except StepError (RState × Bool) :=
  if registryOk reg then
    match foldHist reg house s hist with
    | .error e => .error e
    | .ok s₁ =>
        let s₂ := { s₁ with unpaid := pruneUnpaid s₁.unpaid }
        if sumUnpaid s₂.unpaid ≤ bal then
          .ok (s₂, decide (bal > sumUnpaid s₂.unpaid))
        else .error .insolvent
  else .error .badRegistry

/-- A transfer issued through `api.post_transfer(from, to, amount)`. -/
structure Transfer where
  from_addr : AddrT
  to_addr : AddrT
  amount : ℚ
deriving DecidableEq, Repr

/-- The `for i, wthd_addr in enumerate(wthd_addrs)` loop paying one receive
address: every withdrawal address except the last receives
`(base_value * Decimal(uniform(0.9, 1.1))).quantize(Decimal("0.01"))`
(the next random factor is taken from `rs`, defaulting to 1 if the list is
exhausted) and is subtracted from the running remainder; the last receives
the remainder exactly. `base` is `Decimal(split.numerator) /
Decimal(split.denominator)`, computed once before the loop. -/
def payoutLoop (house : AddrT) (base : ℚ) :
    List AddrT → ℚ → List ℚ → List Transfer
  | [], _, _ => []
  | [w], owed, _ => [{ from_addr := house, to_addr := w, amount := owed }]
  | w :: w1 :: ws, owed, rs =>
      let rounded := quantize2 (decMul base (rs.headD 1))
      { from_addr := house, to_addr := w, amount := rounded } ::
        payoutLoop house base (w1 :: ws) (owed - rounded) rs.tail

/-- Disbursement of one receive address owed `owed`, split over its
withdrawal addresses `wthds`, with random factors `rs`. -/
def payoutsFor (house : AddrT) (wthds : List AddrT) (owed : ℚ) (rs : List ℚ) :
    List Transfer :=
  payoutLoop house (decRound28 (owed / (wthds.length : ℚ))) wthds owed rs

/-- The `for recv_addr, balance_owed in unpaid_receipts.items()` loop: pay
out every current entry, one inner list of random factors per entry. -/
def payoutBatch (house : AddrT) (reg : Registry) :
    List (AddrT × ℚ) → List (List ℚ) → List Transfer
  | [], _ => []
  | (a, owed) :: rest, rss =>
      payoutsFor house (regWthds reg a) owed (rss.headD []) ++
        payoutBatch house reg rest rss.tail

/-- One full iteration of the `disburse_task` watcher loop: reconcile, then
issue the payout batch exactly when at least `minRecv` distinct receive
addresses are owed and the newest contributing transaction is at least
`minAge` old at `now`. -/
structure IterResult where
  state : RState
  warned : Bool
  transfers : List Transfer
deriving DecidableEq, Repr

/-- `disburse_task` watcher iteration (`now = api.now()`, `rss` the random
factors drawn by `uniform(0.9, 1.1)`). -/
def disburseIter (reg : Registry) (house : AddrT) (minRecv : ℕ) (minAge : ℤ)
    (s : RState) (hist : List Transaction) (bal : ℚ) (now : ℤ)
    (rss : List (List ℚ)) : Except StepError IterResult :=
  match reconcile reg house s hist bal with
  | .error e => .error e
  | .ok (s₂, w) =>
      if minRecv ≤ s₂.unpaid.length ∧ s₂.newest + minAge ≤ now then
        .ok { state := s₂, warned := w,
              transfers := payoutBatch house reg s₂.unpaid rss }
      else .ok { state := s₂, warned := w, transfers := [] }

/-- One iteration of the `gather_deposits_task` watcher loop, as a function
of the fetched balance of the receive address: transfer the entire balance
to the house address when it is positive, otherwise do nothing. -/
def gatherIter (recv_addr house_addr : AddrT) (recv_balance : ℚ) :
    List Transfer :=
  if recv_balance > 0 then
    [{ from_addr := recv_addr, to_addr := house_addr, amount := recv_balance }]
  else []

/-- The horizon as §3 of the spec describes it: the latest timestamp among
the transactions currently contributing to unpaid receipts, i.e. among
deposit transactions whose receive address still has an entry in
`unpaid` (epoch when there are none). Stated from the spec's words, for
comparison with the `newest` field maintained by the code. -/
def specHorizon (reg : Registry) (unpaid : List (AddrT × ℚ))
    (hist : List Transaction) : ℤ :=
  ((hist.filter (fun t =>
      match depositFrom reg t with
      | some f => decide (f ∈ unpaid.map Prod.fst)
      | none => false)).map Transaction.timestamp).foldl max 0

/-- Timestamps of the not-yet-reconciled deposit transactions of a history:
exactly the transactions that advance `newest_transaction_dt` when folded
over a state whose reconciled set is `seen`. -/
def newDepositTs (reg : Registry) (seen : List Transaction)
    (hist : List Transaction) : List ℤ :=
  (hist.filter (fun t =>
      decide (t ∉ seen) && (depositFrom reg t).isSome)).map Transaction.timestamp

/-- A one-entry registry, a deposit transaction and the state after folding
it: concrete data used to instantiate the theorems below. -/
def regW : Registry := [("A", ["W1"])]

/-- A deposit of 5 from receive address `A` to the house address `H`. -/
def tx1 : Transaction :=
  { timestamp := 100, amount := 5, to_addr := "H", from_addr := some "A" }

/-- A one-transaction history. -/
def hist1 : List Transaction := [tx1]

/-- The state reached from `initialState` by folding `hist1`. -/
def state1 : RState :=
  { unpaid := [("A", 5)], reconciled := [tx1], newest := 100 }

theorem insertTx_of_mem {l : List Transaction} {t : Transaction}
    (h : t ∈ l) : insertTx l t = l := by
  simp [insertTx, h]

theorem insertTx_of_not_mem {l : List Transaction} {t : Transaction}
    (h : t ∉ l) : insertTx l t = t :: l := by
  simp [insertTx, h]

theorem foldTx_of_mem {reg : Registry} {house : AddrT} {s : RState}
    {t : Transaction} (h : t ∈ s.reconciled) :
    foldTx reg house s t = .ok s := by
  simp [foldTx, h, insertTx_of_mem h]

/-- Inversion principle for a successful `foldTx`: the four branches of the
loop body. -/
theorem foldTx_ok_cases {reg : Registry} {house : AddrT} {s : RState}
    {t : Transaction} {s₁ : RState} (h : foldTx reg house s t = .ok s₁) :
    (t ∈ s.reconciled ∧ s₁ = s) ∨
    (t ∉ s.reconciled ∧
      ((∃ f, depositFrom reg t = some f ∧ t.to_addr = house ∧
          s₁ = { unpaid := bump s.unpaid f t.amount,
                 reconciled := t :: s.reconciled,
                 newest := max s.newest t.timestamp }) ∨
        (depositFrom reg t = none ∧
          ∃ r, wthdOwner reg t.to_addr = some r ∧ t.from_addr = some house ∧
            s₁ = { unpaid := bump s.unpaid r (-t.amount),
                   reconciled := t :: s.reconciled,
                   newest := s.newest }) ∨
        (depositFrom reg t = none ∧ wthdOwner reg t.to_addr = none ∧
          s₁ = { s with reconciled := t :: s.reconciled }))) := by
  by_cases hm : t ∈ s.reconciled
  · left
    refine ⟨hm, ?_⟩
    rw [foldTx_of_mem hm] at h
    exact (Except.ok.inj h).symm
  · right
    refine ⟨hm, ?_⟩
    rw [foldTx, if_neg hm] at h
    rcases hd : depositFrom reg t with _ | f
    · rw [hd] at h
      dsimp only at h
      rcases hw : wthdOwner reg t.to_addr with _ | r
      · rw [hw] at h
        dsimp only at h
        rw [insertTx_of_not_mem hm] at h
        exact Or.inr (Or.inr ⟨rfl, rfl, (Except.ok.inj h).symm⟩)
      · rw [hw] at h
        dsimp only at h
        by_cases hf : t.from_addr = some house
        · rw [if_pos hf, insertTx_of_not_mem hm] at h
          exact Or.inr (Or.inl ⟨rfl, r, rfl, hf, (Except.ok.inj h).symm⟩)
        · rw [if_neg hf] at h
          exact absurd h (by simp)
    · rw [hd] at h
      dsimp only at h
      by_cases ht : t.to_addr = house
      · rw [if_pos ht, insertTx_of_not_mem hm] at h
        exact Or.inl ⟨f, rfl, ht, (Except.ok.inj h).symm⟩
      · rw [if_neg ht] at h
        exact absurd h (by simp)

theorem foldTx_reconciled {reg : Registry} {house : AddrT} {s : RState}
    {t : Transaction} {s₁ : RState} (h : foldTx reg house s t = .ok s₁) :
    s.reconciled ⊆ s₁.reconciled ∧ t ∈ s₁.reconciled := by
  rcases foldTx_ok_cases h with ⟨hm, rfl⟩ | ⟨hm, hc | hc | hc⟩
  · exact ⟨fun _ hu => hu, hm⟩
  · obtain ⟨f, _, _, rfl⟩ := hc
    exact ⟨fun u hu => List.mem_cons_of_mem _ hu, List.mem_cons_self _ _⟩
  · obtain ⟨_, r, _, _, rfl⟩ := hc
    exact ⟨fun u hu => List.mem_cons_of_mem _ hu, List.mem_cons_self _ _⟩
  · obtain ⟨_, _, rfl⟩ := hc
    exact ⟨fun u hu => List.mem_cons_of_mem _ hu, List.mem_cons_self _ _⟩

theorem foldHist_reconciled_sub {reg : Registry} {house : AddrT} :
    ∀ {hist : List Transaction} {s s₂ : RState},
      foldHist reg house s hist = .ok s₂ → s.reconciled ⊆ s₂.reconciled := by
  intro hist
  induction hist with
  | nil =>
      intro s s₂ h
      rw [foldHist] at h
      cases Except.ok.inj h
      exact fun _ hu => hu
  | cons t ts ih =>
      intro s s₂ h
      rw [foldHist] at h
      rcases h1 : foldTx reg house s t with e | s₁
      · rw [h1] at h; cases h
      · rw [h1] at h
        exact fun u hu => ih h ((foldTx_reconciled h1).1 hu)

theorem foldHist_mem_reconciled {reg : Registry} {house : AddrT} :
    ∀ {hist : List Transaction} {s s₂ : RState},
      foldHist reg house s hist = .ok s₂ → ∀ t ∈ hist, t ∈ s₂.reconciled := by
  intro hist
  induction hist with
  | nil => intro s s₂ _ t ht; cases ht
  | cons u ts ih =>
      intro s s₂ h t ht
      rw [foldHist] at h
      rcases h1 : foldTx reg house s u with e | s₁
      · rw [h1] at h; cases h
      · rw [h1] at h
        rcases List.mem_cons.mp ht with rfl | ht
        · exact foldHist_reconciled_sub h ((foldTx_reconciled h1).2)
        · exact ih h t ht

theorem foldHist_of_all_reconciled {reg : Registry} {house : AddrT} :
    ∀ {hist : List Transaction} {s : RState},
      (∀ t ∈ hist, t ∈ s.reconciled) → foldHist reg house s hist = .ok s := by
  intro hist
  induction hist with
  | nil => intro s _; rfl
  | cons u ts ih =>
      intro s h
      rw [foldHist, foldTx_of_mem (h u (List.mem_cons_self _ _))]
      exact ih fun t ht => h t (List.mem_cons_of_mem _ ht)

/-- C7. Idempotent replay: folding the same transaction history a second
time against the resulting state (same `ReconciledSet` semantics) is a
no-op: if `foldHist` over `hist` from `s` succeeds with `s₂`, then folding
`hist` again from `s₂` succeeds and leaves the whole state — in particular
`UnpaidReceipts` — unchanged. -/
theorem fold_replay_idempotent {reg : Registry} {house : AddrT}
    {hist : List Transaction} {s s₂ : RState}
    (h : foldHist reg house s hist = .ok s₂) :
    foldHist reg house s₂ hist = .ok s₂ :=
  foldHist_of_all_reconciled (foldHist_mem_reconciled h)

/-- Witness for C7 at a concrete history: replaying `hist1` over the state
it produced returns that state unchanged. -/
theorem fold_replay_idempotent_witness :
    foldHist regW "H" state1 hist1 = .ok state1 := by
  have h : foldHist regW "H" initialState hist1 = .ok state1 := by
    simp [hist1, foldHist, foldTx, initialState, depositFrom, fromTruthy,
      wthdOwner, insertTx, bump, regW, tx1, state1]
  exact fold_replay_idempotent h

/-- C1. Solvency invariant: in any reconciler iteration that survives the
solvency check — every reachable state after folding the fetched history and
pruning zero entries — the sum of `unpaid_receipts.values()` is at most the
observed house balance, and the surplus warning is logged exactly when the
balance strictly exceeds the sum (a strict surplus alone never fails the
iteration); if instead the pruned sum strictly exceeds the balance, the
iteration dies with the fatal internal-consistency `assert`. -/
theorem solvency_invariant (reg : Registry) (house : AddrT) (s : RState)
    (hist : List Transaction) (bal : ℚ) :
    (∀ s₂ w, reconcile reg house s hist bal = .ok (s₂, w) →
        sumUnpaid s₂.unpaid ≤ bal ∧ (w = true ↔ sumUnpaid s₂.unpaid < bal)) ∧
    (∀ s₁, registryOk reg → foldHist reg house s hist = .ok s₁ →
        bal < sumUnpaid (pruneUnpaid s₁.unpaid) →
        reconcile reg house s hist bal = .error .insolvent) := by
  constructor
  · intro s₂ w h
    rw [reconcile] at h
    by_cases hr : registryOk reg
    · rw [if_pos hr] at h
      rcases hf : foldHist reg house s hist with e | s₁
      · rw [hf] at h; cases h
      · rw [hf] at h
        dsimp only at h
        by_cases hs : sumUnpaid (pruneUnpaid s₁.unpaid) ≤ bal
        · rw [if_pos hs] at h
          injection h with h1
          injection h1 with h2 h3
          subst h2; subst h3
          refine ⟨hs, ?_⟩
          simp [decide_eq_true_iff]
        · rw [if_neg hs] at h; cases h
    · rw [if_neg hr] at h; cases h
  · intro s₁ hr hf hlt
    rw [reconcile, if_pos hr, hf]
    dsimp only
    rw [if_neg (not_le.mpr hlt)]

/-- Witness for C1: the concrete one-deposit reconciliation succeeds with a
sum of 5 owed against a balance of 5, with no surplus warning. -/
theorem solvency_invariant_witness :
    sumUnpaid state1.unpaid ≤ 5 ∧
      (false = true ↔ sumUnpaid state1.unpaid < 5) := by
  refine (solvency_invariant regW "H" initialState hist1 5).1 state1 false ?_
  simp [reconcile, registryOk, regW, foldHist, foldTx, initialState,
    depositFrom, fromTruthy, wthdOwner, insertTx, bump, hist1, tx1,
    pruneUnpaid, sumUnpaid, state1]

/-- C9. DepositGatherer sweep: in one gatherer iteration, a strictly
positive fetched balance triggers exactly one transfer, of the entire
balance, from the receive address to the house address; a zero or negative
fetched balance triggers none. -/
theorem gather_sweep (recv_addr house_addr : AddrT) (recv_balance : ℚ) :
    (recv_balance > 0 → gatherIter recv_addr house_addr recv_balance =
        [{ from_addr := recv_addr, to_addr := house_addr,
           amount := recv_balance }]) ∧
    (recv_balance ≤ 0 → gatherIter recv_addr house_addr recv_balance = []) := by
  constructor
  · intro h; rw [gatherIter, if_pos h]
  · intro h; rw [gatherIter, if_neg (not_lt.mpr h)]

/-- Witness for C9: a balance of 3 is swept in full. -/
theorem gather_sweep_witness :
    gatherIter "r1" "H" 3 =
      [{ from_addr := "r1", to_addr := "H", amount := 3 }] :=
  (gather_sweep "r1" "H" 3).1 (by norm_num)

/-- C4 (code bug). `Api.post_transfer` raises `InsufficientFundsError` on
status 422 as claimed, but its `isinstance(resp, HTTPException)` guard can
never fire for an `aiohttp.ClientResponse`, so every other non-success
ledger response — here a 500 — returns successfully instead of raising a
`TransportError`. -/
theorem post_transfer_no_transport_error :
    post_transfer (clientResponse 500) = .ok () ∧
    post_transfer (clientResponse 422) = .error .insufficientFunds := by
  exact ⟨rfl, rfl⟩

/-- The registry, history and reconciled state of the C10 scenario: the
house is funded by an unknown external transaction and then pays 5 to the
known withdrawal address `W` with no prior deposit from its owning receive
address `A`. -/
def regN : Registry := [("A", ["W"])]

/-- External funding of the house address (no `from_addr`). -/
def txFund : Transaction :=
  { timestamp := 1, amount := 5, to_addr := "H", from_addr := none }

/-- A payout of 5 from the house to withdrawal address `W`. -/
def txPay : Transaction :=
  { timestamp := 2, amount := 5, to_addr := "W", from_addr := some "H" }

/-- The C10 history: funding, then an unmatched payout. -/
def histN : List Transaction := [txFund, txPay]

/-- The state reached by reconciling `histN`: a strictly negative owed
entry for `A`. -/
def stateN : RState :=
  { unpaid := [("A", -5)], reconciled := [txPay, txFund], newest := 0 }

/-- C10. `UnpaidReceipts` values are not guaranteed nonnegative: reconciling
a history whose only classified transaction is a payout to a known
withdrawal address with no matching prior deposit yields a strictly negative
entry for the owning receive address; the entry survives pruning (only
exactly-zero entries are removed) and counts toward the
`min_distinct_receiver_addrs` threshold via `len(unpaid_receipts)`. -/
theorem unpaid_receipts_can_go_negative :
    reconcile regN "H" initialState histN 0 = .ok (stateN, true) ∧
    stateN.unpaid = [("A", -5)] ∧ (-5 : ℚ) < 0 ∧
    stateN.unpaid.length = 1 := by
  refine ⟨?_, rfl, by norm_num, rfl⟩
  simp [reconcile, registryOk, regN, foldHist, foldTx, initialState,
    depositFrom, fromTruthy, wthdOwner, insertTx, bump, histN, txFund, txPay,
    pruneUnpaid, sumUnpaid, stateN]

theorem payoutLoop_ne_nil {house : AddrT} {base : ℚ} {wthds : List AddrT}
    {owed : ℚ} {rs : List ℚ} (h : wthds ≠ []) :
    payoutLoop house base wthds owed rs ≠ [] := by
  cases wthds with
  | nil => exact absurd rfl h
  | cons w ws => cases ws <;> simp [payoutLoop]

theorem payoutsFor_ne_nil {house : AddrT} {wthds : List AddrT} {owed : ℚ}
    {rs : List ℚ} (h : wthds ≠ []) :
    payoutsFor house wthds owed rs ≠ [] := by
  rw [payoutsFor]; exact payoutLoop_ne_nil h

/-- C6. Threshold gating: in a reconciler iteration whose reconciliation
succeeded with state `s₂` (and nonempty withdrawal sets for the owed
addresses, as the registry check enforces), payout transfers are issued if
and only if `len(unpaid_receipts) >= min_distinct_receiver_addrs` and
`now >= newest_transaction_dt + min_transaction_age`, both comparisons
inclusive at the boundary. -/
theorem threshold_gating (reg : Registry) (house : AddrT) (minRecv : ℕ)
    (minAge : ℤ) (s : RState) (hist : List Transaction) (bal : ℚ) (now : ℤ)
    (rss : List (List ℚ)) (s₂ : RState) (w : Bool)
    (hrec : reconcile reg house s hist bal = .ok (s₂, w))
    (hmin : 1 ≤ minRecv)
    (hws : ∀ p ∈ s₂.unpaid, regWthds reg p.1 ≠ []) :
    ∃ out, disburseIter reg house minRecv minAge s hist bal now rss = .ok out ∧
      (out.transfers ≠ [] ↔
        (minRecv ≤ s₂.unpaid.length ∧ s₂.newest + minAge ≤ now)) := by
  rw [disburseIter, hrec]
  dsimp only
  by_cases hg : minRecv ≤ s₂.unpaid.length ∧ s₂.newest + minAge ≤ now
  · rw [if_pos hg]
    refine ⟨_, rfl, iff_of_true ?_ hg⟩
    rcases hu : s₂.unpaid with _ | ⟨⟨a, q⟩, rest⟩
    · exfalso
      rw [hu] at hg
      obtain ⟨hg1, _⟩ := hg
      simp at hg1
      omega
    · rw [payoutBatch]
      intro hnil
      rcases List.append_eq_nil.mp hnil with ⟨h1, _⟩
      refine payoutsFor_ne_nil (hws (a, q) ?_) h1
      rw [hu]
      exact List.mem_cons_self _ _
  · rw [if_neg hg]
    exact ⟨_, rfl, by simp [hg]⟩

/-- Witness for C6, exactly at both boundaries: one owed address against a
threshold of 1, and `now` exactly `newest + minAge`; the batch is issued. -/
theorem threshold_gating_witness :
    ∃ out, disburseIter regW "H" 1 60 initialState hist1 5 160 [] = .ok out ∧
      (out.transfers ≠ [] ↔
        (1 ≤ state1.unpaid.length ∧ state1.newest + 60 ≤ 160)) := by
  refine threshold_gating regW "H" 1 60 initialState hist1 5 160 [] state1
    false ?_ (by norm_num) ?_
  · simp [reconcile, registryOk, regW, foldHist, foldTx, initialState,
      depositFrom, fromTruthy, wthdOwner, insertTx, bump, hist1, tx1,
      pruneUnpaid, sumUnpaid, state1]
  · intro p hp
    rw [state1] at hp
    simp only [List.mem_singleton] at hp
    subst hp
    simp [regWthds, regW]

theorem payoutLoop_amount_sum (house : AddrT) (base : ℚ) :
    ∀ (wthds : List AddrT) (owed : ℚ) (rs : List ℚ), wthds ≠ [] →
      ((payoutLoop house base wthds owed rs).map Transfer.amount).sum = owed := by
  intro wthds
  induction wthds with
  | nil => intro owed rs h; exact absurd rfl h
  | cons w ws ih =>
      intro owed rs _
      cases ws with
      | nil => simp [payoutLoop]
      | cons w1 ws1 =>
          rw [payoutLoop]
          simp only [List.map_cons, List.sum_cons]
          rw [ih _ _ (by simp)]
          ring

/-- C2. Exact payout sum: for a receive address owed `B`, split over a
non-empty list of `N` withdrawal addresses, the amounts actually transferred
sum to exactly `B`, for every choice of random jitter factors and despite
the rounding of the first `N-1` amounts (the last transfer is the exact
unrounded remainder). -/
theorem payout_sum_exact (house : AddrT) (wthds : List AddrT) (owed : ℚ)
    (rs : List ℚ) (h : wthds ≠ []) :
    ((payoutsFor house wthds owed rs).map Transfer.amount).sum = owed := by
  rw [payoutsFor]
  exact payoutLoop_amount_sum _ _ wthds owed rs h

/-- Witness for C2: a concrete two-way split sums back to the owed 10. -/
theorem payout_sum_exact_witness :
    ((payoutsFor "H" ["a", "b"] 10 [1]).map Transfer.amount).sum = 10 :=
  payout_sum_exact "H" ["a", "b"] 10 [1] (by simp)

theorem getD_tail (rs : List ℚ) (i : ℕ) (d : ℚ) :
    rs.tail.getD i d = rs.getD (i + 1) d := by
  cases rs <;> simp [List.getD]

theorem headD_eq_getD (rs : List ℚ) (d : ℚ) : rs.headD d = rs.getD 0 d := by
  cases rs <;> rfl

theorem payoutLoop_getElem (house : AddrT) (base : ℚ) :
    ∀ (wthds : List AddrT) (owed : ℚ) (rs : List ℚ) (i : ℕ),
      i + 1 < wthds.length →
      (payoutLoop house base wthds owed rs)[i]? =
        some { from_addr := house, to_addr := wthds.getD i "",
               amount := quantize2 (decMul base (rs.getD i 1)) } := by
  intro wthds
  induction wthds with
  | nil => intro _ _ i hi; simp at hi
  | cons w ws ih =>
      intro owed rs i hi
      cases ws with
      | nil => simp at hi
      | cons w1 ws1 =>
          cases i with
          | zero =>
              rw [payoutLoop]
              cases rs <;> simp [List.getD]
          | succ i =>
              rw [payoutLoop]
              have hi1 : i + 1 < (w1 :: ws1).length := by
                simp only [List.length_cons] at hi ⊢
                omega
              simp only [List.getElem?_cons_succ]
              rw [ih _ _ i hi1, getD_tail]
              simp [List.getD]

/-- C8 (amended). Jittered split computation as the code performs it: for
every non-last withdrawal address `i`, the transferred amount equals
`quantize2 (decMul base r_i)` where `base = decRound28 (B / N)` is the
28-significant-digit decimal approximation of the exact split `B / N`
(computed once per receive address by `Decimal(split.numerator) /
Decimal(split.denominator)`), `r_i` is the drawn random factor, the product
is itself computed in 28-digit decimal arithmetic, and `quantize2` rounds to
2 decimal places half-to-even. -/
theorem jitter_split_amended (house : AddrT) (wthds : List AddrT) (owed : ℚ)
    (rs : List ℚ) (i : ℕ) (hi : i + 1 < wthds.length) :
    (payoutsFor house wthds owed rs)[i]? =
      some { from_addr := house, to_addr := wthds.getD i "",
             amount := quantize2 (decMul
               (decRound28 (owed / (wthds.length : ℚ))) (rs.getD i 1)) } := by
  rw [payoutsFor]
  exact payoutLoop_getElem _ _ wthds owed rs i hi

/-- Witness for C8's amended statement at a concrete two-way split. -/
theorem jitter_split_amended_witness :
    (payoutsFor "H" ["a", "b"] 10 [1])[0]? =
      some { from_addr := "H", to_addr := "a",
             amount := quantize2 (decMul (decRound28 (10 / 2)) 1) } := by
  have h := jitter_split_amended "H" ["a", "b"] 10 [1] 0 (by norm_num)
  simpa using h

theorem digits10_spec (n : ℕ) (hn : 0 < n) :
    1 ≤ digits10 n ∧ 10 ^ (digits10 n - 1) ≤ n ∧ n < 10 ^ digits10 n := by
  induction n using Nat.strong_induction_on with
  | _ n ih =>
    rw [digits10]
    by_cases h : n < 10
    · simp [h]; omega
    · simp only [if_neg h]
      have hdpos : 0 < n / 10 := Nat.div_pos (by omega) (by omega)
      have hrec := ih (n / 10) (Nat.div_lt_self (by omega) (by omega)) hdpos
      obtain ⟨h1, h2, h3⟩ := hrec
      obtain ⟨k, hk⟩ : ∃ k, digits10 (n / 10) = k + 1 :=
        ⟨digits10 (n / 10) - 1, by omega⟩
      rw [hk] at h2 h3 ⊢
      simp only [Nat.add_sub_cancel] at h2 ⊢
      refine ⟨by omega, ?_, ?_⟩
      · calc 10 ^ (k + 1) = 10 * 10 ^ k := by ring
          _ ≤ 10 * (n / 10) := by omega
          _ ≤ n := Nat.mul_div_le n 10
      · have hup : n < 10 * (n / 10) + 10 := by omega
        have hpow : 1 ≤ 10 ^ (k + 1) := Nat.one_le_pow _ _ (by omega)
        have hstep : 10 ^ (k + 1 + 1) = 10 * 10 ^ (k + 1) := by ring
        omega

theorem digits10_eq_iff (n d : ℕ) (hn : 0 < n) (hd : 1 ≤ d) :
    digits10 n = d ↔ 10 ^ (d - 1) ≤ n ∧ n < 10 ^ d := by
  obtain ⟨h1, h2, h3⟩ := digits10_spec n hn
  constructor
  · rintro rfl; exact ⟨h2, h3⟩
  · rintro ⟨hl, hu⟩
    by_contra hne
    rcases Nat.lt_or_ge (digits10 n) d with h | h
    · have : 10 ^ digits10 n ≤ 10 ^ (d - 1) :=
        Nat.pow_le_pow_right (by omega) (by omega)
      omega
    · have hgt : d < digits10 n := by omega
      have : 10 ^ d ≤ 10 ^ (digits10 n - 1) :=
        Nat.pow_le_pow_right (by omega) (by omega)
      omega

theorem tenPow_pos (s : ℤ) : 0 < tenPow s :=
  zpow_pos (by norm_num) s

theorem tenPow_natCast (k : ℕ) : tenPow (k : ℤ) = (10 : ℚ) ^ k := by
  rw [tenPow]; exact zpow_natCast 10 k

theorem tenPow_add (a b : ℤ) : tenPow (a + b) = tenPow a * tenPow b := by
  rw [tenPow, tenPow, tenPow]; exact zpow_add₀ (by norm_num) a b

theorem tenPow_mono {a b : ℤ} (h : a ≤ b) : tenPow a ≤ tenPow b :=
  zpow_le_zpow_right₀ (by norm_num) h

theorem geCheck_iff (n d : ℕ) (s : ℤ) :
    geCheck n d s = true ↔ 10 ^ 27 * (d : ℚ) ≤ (n : ℚ) * tenPow s := by
  rw [geCheck]
  by_cases hs : (0 : ℤ) ≤ s
  · rw [if_pos hs, decide_eq_true_eq]
    have hts : tenPow s = ((10 : ℚ)) ^ s.toNat := by
      rw [tenPow]
      conv_lhs => rw [← Int.toNat_of_nonneg hs]
      rw [zpow_natCast]
    rw [hts]
    constructor
    · intro h; exact_mod_cast h
    · intro h; exact_mod_cast h
  · rw [if_neg hs, decide_eq_true_eq]
    have hm : s = -(((-s).toNat : ℕ) : ℤ) := by omega
    have hts : tenPow s = ((10 : ℚ) ^ (-s).toNat)⁻¹ := by
      rw [tenPow]
      conv_lhs => rw [hm]
      rw [zpow_neg, zpow_natCast]
    have hp : (0 : ℚ) < 10 ^ (-s).toNat := by positivity
    rw [hts, ← div_eq_mul_inv, le_div_iff₀ hp]
    constructor
    · intro h; exact_mod_cast h
    · intro h; exact_mod_cast h

/-- The scaling exponent chosen by `scale` puts `(n / d) * 10 ^ s` into the
half-open interval `[10 ^ 27, 10 ^ 28)` of 28-significant-digit
coefficients. -/
theorem scale_bounds (n d : ℕ) (hn : 0 < n) (hd : 0 < d) :
    10 ^ 27 * (d : ℚ) ≤ (n : ℚ) * tenPow (scale n d) ∧
    (n : ℚ) * tenPow (scale n d) < 10 ^ 28 * (d : ℚ) := by
  obtain ⟨hL1, hL2, hL3⟩ := digits10_spec n hn
  obtain ⟨hM1, hM2, hM3⟩ := digits10_spec d hd
  obtain ⟨k, hk⟩ : ∃ k, digits10 n = k + 1 := ⟨digits10 n - 1, by omega⟩
  obtain ⟨m, hm⟩ : ∃ m, digits10 d = m + 1 := ⟨digits10 d - 1, by omega⟩
  rw [hk] at hL2 hL3
  rw [hm] at hM2 hM3
  simp only [Nat.add_sub_cancel] at hL2 hM2
  have hnQ1 : (10 : ℚ) ^ k ≤ (n : ℚ) := by exact_mod_cast hL2
  have hnQ2 : (n : ℚ) < 10 ^ (k + 1) := by exact_mod_cast hL3
  have hdQ1 : (10 : ℚ) ^ m ≤ (d : ℚ) := by exact_mod_cast hM2
  have hdQ2 : (d : ℚ) < 10 ^ (m + 1) := by exact_mod_cast hM3
  simp only [scale, hk, hm]
  by_cases hgc : geCheck n d (27 - ((k + 1 : ℕ) : ℤ) + ((m + 1 : ℕ) : ℤ)) = true
  · rw [if_pos hgc]
    set s1 : ℤ := 27 - ((k + 1 : ℕ) : ℤ) + ((m + 1 : ℕ) : ℤ) with hs1
    refine ⟨(geCheck_iff n d s1).mp hgc, ?_⟩
    have h1 : (n : ℚ) * tenPow s1 < 10 ^ (k + 1) * tenPow s1 :=
      mul_lt_mul_of_pos_right hnQ2 (tenPow_pos s1)
    have h2 : (10 : ℚ) ^ (k + 1) * tenPow s1 = 10 ^ 28 * 10 ^ m := by
      rw [← tenPow_natCast (k + 1), ← tenPow_add, ← tenPow_natCast 28,
        ← tenPow_natCast m, ← tenPow_add]
      congr 1
      omega
    calc (n : ℚ) * tenPow s1 < 10 ^ (k + 1) * tenPow s1 := h1
      _ = 10 ^ 28 * 10 ^ m := h2
      _ ≤ 10 ^ 28 * d := by
          have hpos : (0 : ℚ) < 10 ^ 28 := by positivity
          exact mul_le_mul_of_nonneg_left hdQ1 (le_of_lt hpos)
  · rw [if_neg hgc]
    set s1 : ℤ := 27 - ((k + 1 : ℕ) : ℤ) + ((m + 1 : ℕ) : ℤ) with hs1
    have hlt : (n : ℚ) * tenPow s1 < 10 ^ 27 * (d : ℚ) :=
      not_le.mp fun hle => hgc ((geCheck_iff n d s1).mpr hle)
    constructor
    · have h0 : (10 : ℚ) ^ k * tenPow (s1 + 1) = 10 ^ 27 * 10 ^ (m + 1) := by
        rw [← tenPow_natCast k, ← tenPow_add, ← tenPow_natCast 27,
          ← tenPow_natCast (m + 1), ← tenPow_add]
        congr 1
        omega
      have hchain : 10 ^ 27 * (d : ℚ) < (n : ℚ) * tenPow (s1 + 1) := by
        calc 10 ^ 27 * (d : ℚ) < 10 ^ 27 * 10 ^ (m + 1) := by
              have hpos : (0 : ℚ) < 10 ^ 27 := by positivity
              exact mul_lt_mul_of_pos_left hdQ2 hpos
          _ = 10 ^ k * tenPow (s1 + 1) := h0.symm
          _ ≤ (n : ℚ) * tenPow (s1 + 1) :=
              mul_le_mul_of_nonneg_right hnQ1 (le_of_lt (tenPow_pos _))
      exact le_of_lt hchain
    · have hten : tenPow (s1 + 1) = tenPow s1 * 10 := by
        rw [tenPow, tenPow]
        exact zpow_add_one₀ (by norm_num) s1
      calc (n : ℚ) * tenPow (s1 + 1) = ((n : ℚ) * tenPow s1) * 10 := by
            rw [hten]; ring
        _ < (10 ^ 27 * (d : ℚ)) * 10 := by
            exact mul_lt_mul_of_pos_right hlt (by norm_num)
        _ = 10 ^ 28 * (d : ℚ) := by ring

/-- `decRound28` is exact on rationals with at most 28 significant decimal
digits: for `0 < c < 10 ^ 28`, the value `c / 10 ^ k` is reproduced
unchanged. -/
theorem decRound28_exact (c k : ℕ) (hc : 0 < c) (hub : c < 10 ^ 28) :
    decRound28 ((c : ℚ) / 10 ^ k) = (c : ℚ) / 10 ^ k := by
  have hq0 : (0 : ℚ) < (c : ℚ) / 10 ^ k := by
    apply div_pos
    · exact_mod_cast hc
    · positivity
  set q : ℚ := (c : ℚ) / 10 ^ k with hqdef
  have hn0 : 0 < q.num.natAbs := by
    have h1 : 0 < q.num := Rat.num_pos.mpr hq0
    omega
  have hd0 : 0 < q.den := q.den_pos
  have hnum_cast : ((q.num.natAbs : ℕ) : ℚ) = (q.num : ℚ) := by
    have h1 : 0 ≤ q.num := le_of_lt (Rat.num_pos.mpr hq0)
    rw [Int.cast_natAbs, abs_of_nonneg]
    exact_mod_cast h1
  have hqnd : ((q.num.natAbs : ℕ) : ℚ) / ((q.den : ℕ) : ℚ) = q := by
    rw [hnum_cast]; exact Rat.num_div_den q
  obtain ⟨hlb, hub2⟩ := scale_bounds q.num.natAbs q.den hn0 hd0
  set s := scale q.num.natAbs q.den with hsdef
  have hdQ : (0 : ℚ) < (q.den : ℚ) := by exact_mod_cast hd0
  have hqlb : 10 ^ 27 ≤ q * tenPow s := by
    rw [← hqnd, div_mul_eq_mul_div, le_div_iff₀ hdQ]
    linarith [hlb]
  have hqts : q * tenPow s = (c : ℚ) * tenPow (s - (k : ℤ)) := by
    rw [hqdef, ← tenPow_natCast k, div_mul_eq_mul_div, mul_div_assoc]
    congr 1
    simp only [tenPow]
    rw [← zpow_sub₀ (by norm_num : (10 : ℚ) ≠ 0)]
  have hsk : (k : ℤ) ≤ s := by
    by_contra hcon
    push_neg at hcon
    have h2 : tenPow (s - (k : ℤ)) ≤ tenPow (-1) := tenPow_mono (by omega)
    have h3 : tenPow (-1 : ℤ) = 1 / 10 := by rw [tenPow]; norm_num
    have hcQ : (c : ℚ) < 10 ^ 28 := by exact_mod_cast hub
    have h4 : q * tenPow s < 10 ^ 27 := by
      rw [hqts]
      calc (c : ℚ) * tenPow (s - (k : ℤ)) ≤ (c : ℚ) * tenPow (-1) :=
            mul_le_mul_of_nonneg_left h2 (by positivity)
        _ = (c : ℚ) * (1 / 10) := by rw [h3]
        _ < 10 ^ 28 * (1 / 10) := by linarith
        _ = 10 ^ 27 := by norm_num
    linarith [hqlb]
  have hden1 : (q * tenPow s).den = 1 := by
    rw [hqts]
    have hsk2 : tenPow (s - (k : ℤ)) = (((10 : ℕ) ^ (s - (k : ℤ)).toNat : ℕ) : ℚ) := by
      push_cast
      rw [← tenPow_natCast, Int.toNat_of_nonneg (by omega)]
    rw [hsk2, ← Nat.cast_mul, Rat.den_natCast]
  simp only [decRound28]
  rw [if_neg (ne_of_gt hq0), abs_of_pos hq0, ← hsdef, if_pos hden1,
    if_neg (not_lt.mpr (le_of_lt hq0))]

/-- C3 (amended). Amount round-trip for finitely representable amounts:
for every exact rational expressible as `c / 10 ^ k` with at most 28
significant digits (`0 < c < 10 ^ 28`), the 28-digit decimal division of
`frac2str` is exact, so parsing the formatted wire string returns the
amount unchanged. (For rationals needing more than 28 significant decimal
digits — e.g. repeating decimals such as 10/3 — the formatted value is the
half-even 28-significant-digit rounding and the round-trip fails.) -/
theorem frac2str_roundtrip_finite (c k : ℕ) (hc : 0 < c) (hub : c < 10 ^ 28) :
    frac2strVal ((c : ℚ) / 10 ^ k) = (c : ℚ) / 10 ^ k := by
  rw [frac2strVal]
  exact decRound28_exact c k hc hub

/-- Witness for C3's amended statement: `1.01` (i.e. `101 / 10 ^ 2`)
round-trips exactly. -/
theorem frac2str_roundtrip_finite_witness :
    frac2strVal ((101 : ℚ) / 10 ^ 2) = (101 : ℚ) / 10 ^ 2 :=
  frac2str_roundtrip_finite 101 2 (by norm_num) (by norm_num)

/-- Unfolding of `decRound28` for a positive argument. -/
theorem decRound28_of_pos {q : ℚ} (hq : 0 < q) :
    decRound28 q =
      (if (q * tenPow (scale q.num.natAbs q.den)).den = 1 then q
       else (rhe (q * tenPow (scale q.num.natAbs q.den)) : ℚ) /
         tenPow (scale q.num.natAbs q.den)) := by
  simp only [decRound28]
  rw [if_neg (ne_of_gt hq), abs_of_pos hq, if_neg (not_lt.mpr (le_of_lt hq))]

theorem scale_10_3 : scale 10 3 = 27 := by
  have h1 : digits10 10 = 2 := by
    rw [digits10_eq_iff 10 2 (by norm_num) (by norm_num)]
    norm_num
  have h2 : digits10 3 = 1 := by
    rw [digits10_eq_iff 3 1 (by norm_num) (by norm_num)]
    norm_num
  simp only [scale, h1, h2]
  norm_num [geCheck, show Int.toNat 26 = 26 from rfl]

/-- The code's `frac2str(Fraction(10, 3))` denotes the 28-threes decimal
`3.333333333333333333333333333`, not `10/3`. -/
theorem decRound28_ten_thirds :
    decRound28 (10 / 3 : ℚ) = 3333333333333333333333333333 / 10 ^ 27 := by
  rw [decRound28_of_pos (by norm_num)]
  have hna : (10 / 3 : ℚ).num.natAbs = 10 := by
    have h : (10 / 3 : ℚ).num = 10 := by norm_num
    rw [h]
    rfl
  have hden : (10 / 3 : ℚ).den = 3 := by norm_num
  rw [hna, hden, scale_10_3]
  rw [if_neg (by norm_num [tenPow] : ¬((10 / 3 : ℚ) * tenPow 27).den = 1)]
  have hr : rhe ((10 / 3 : ℚ) * tenPow 27) = 3333333333333333333333333333 := by
    norm_num [rhe, tenPow]
  rw [hr]
  norm_num [tenPow]

/-- C3 (counterexample). The amount round-trip fails on the repeating
decimal `10/3`: `Fraction(frac2str(Fraction(10, 3)))` is the 28-digit
truncation `3.333333333333333333333333333`, which differs from `10/3`. -/
theorem frac2str_roundtrip_counterexample :
    frac2strVal (10 / 3 : ℚ) ≠ (10 / 3 : ℚ) := by
  rw [frac2strVal, decRound28_ten_thirds]
  norm_num

theorem scale_cex : scale 23450000000000000000000000001
    10000000000000000000000000000 = 27 := by
  have h1 : digits10 23450000000000000000000000001 = 29 := by
    rw [digits10_eq_iff _ _ (by norm_num) (by norm_num)]
    norm_num
  have h2 : digits10 10000000000000000000000000000 = 29 := by
    rw [digits10_eq_iff _ _ (by norm_num) (by norm_num)]
    norm_num
  simp only [scale, h1, h2]
  norm_num [geCheck, show Int.toNat 27 = 27 from rfl]

/-- `Decimal(23450000000000000000000000001) /
Decimal(10 ^ 28)` rounds (half-even) to `2.345` at 28 significant digits:
the 29-digit exact quotient `2.3450000000000000000000000001` loses its
final `1`. -/
theorem decRound28_cexSplit :
    decRound28 ((23450000000000000000000000001 : ℚ) / 10 ^ 28) = 469 / 200 := by
  rw [decRound28_of_pos (by norm_num)]
  have hna : ((23450000000000000000000000001 : ℚ) / 10 ^ 28).num.natAbs
      = 23450000000000000000000000001 := by
    have h : ((23450000000000000000000000001 : ℚ) / 10 ^ 28).num
        = (23450000000000000000000000001 : ℤ) := by norm_num
    rw [h]
    rfl
  have hden : ((23450000000000000000000000001 : ℚ) / 10 ^ 28).den
      = 10000000000000000000000000000 := by norm_num
  rw [hna, hden, scale_cex]
  have hd1 : ((23450000000000000000000000001 : ℚ) / 10 ^ 28 * tenPow 27).den
      = 10 := by
    norm_num [tenPow]
  rw [if_neg (by rw [hd1]; norm_num)]
  have hr : rhe (((23450000000000000000000000001 : ℚ) / 10 ^ 28) * tenPow 27)
      = 2345000000000000000000000000 := by
    norm_num [rhe, tenPow]
  rw [hr]
  norm_num [tenPow]

theorem decMul_base_one : decMul ((469 : ℚ) / 200) 1 = 469 / 200 := by
  rw [decMul, mul_one]
  have h := decRound28_exact 2345 3 (by norm_num) (by norm_num)
  norm_num at h
  exact h

theorem quantize2_2345 : quantize2 ((469 : ℚ) / 200) = 117 / 50 := by
  norm_num [quantize2, rhe]

theorem quantize2_cexSplit :
    quantize2 ((23450000000000000000000000001 : ℚ) / 10 ^ 28) = 47 / 20 := by
  norm_num [quantize2, rhe]

/-- C8 (counterexample). The claimed amount for a non-last withdrawal
address is "(B/N) × r rounded to 2 decimal places half-to-even", but the
code first rounds `B/N` to 28 significant decimal digits. With
`B = 2 × 2.3450000000000000000000000001`, `N = 2` and the admissible random
factor `r = 1` (`0.9 ≤ 1 ≤ 1.1`), the code transfers `2.34` while the
claimed formula gives `2.35`. -/
theorem jitter_split_counterexample :
    ((payoutsFor "H" ["w1", "w2"]
        ((23450000000000000000000000001 : ℚ) / 5000000000000000000000000000)
        [1]).map Transfer.amount)[0]? = some (117 / 50) ∧
    quantize2 ((23450000000000000000000000001 : ℚ) / 5000000000000000000000000000
        / 2 * 1) = 47 / 20 ∧
    (117 / 50 : ℚ) ≠ 47 / 20 ∧ (9 / 10 : ℚ) ≤ 1 ∧ (1 : ℚ) ≤ 11 / 10 := by
  have hsplit : (23450000000000000000000000001 : ℚ) / 5000000000000000000000000000
      / 2 = (23450000000000000000000000001 : ℚ) / 10 ^ 28 := by
    rw [div_div]
    norm_num
  refine ⟨?_, ?_, by norm_num, by norm_num, by norm_num⟩
  · rw [payoutsFor]
    have hbase : decRound28 ((23450000000000000000000000001 : ℚ) /
        5000000000000000000000000000 /
          ((["w1", "w2"] : List AddrT).length : ℚ)) = 469 / 200 := by
      have hlen : (((["w1", "w2"] : List AddrT).length : ℚ)) = 2 := by norm_num
      rw [hlen, hsplit, decRound28_cexSplit]
    rw [hbase]
    simp only [payoutLoop, List.headD, List.map_cons, List.getElem?_cons_zero]
    rw [decMul_base_one, quantize2_2345]
  · rw [mul_one, hsplit, quantize2_cexSplit]

/-- Registry of the C5 scenario: two receive addresses with one withdrawal
address each. -/
def regH : Registry := [("A", ["WA"]), ("B", ["WB"])]

/-- A deposit of 7 from receive address `A`, at timestamp 100. -/
def txDepA : Transaction :=
  { timestamp := 100, amount := 7, to_addr := "H", from_addr := some "A" }

/-- The payout retiring `A`'s receipt in full. -/
def txPayA : Transaction :=
  { timestamp := 150, amount := 7, to_addr := "WA", from_addr := some "H" }

/-- A deposit of 5 from receive address `B`, at the older timestamp 50. -/
def txDepB : Transaction :=
  { timestamp := 50, amount := 5, to_addr := "H", from_addr := some "B" }

/-- The C5 history: `A` deposits and is fully paid out, `B`'s older deposit
remains owed. -/
def histH : List Transaction := [txDepA, txPayA, txDepB]

/-- The reconciled state of the C5 scenario: only `B` is owed, yet
`newest_transaction_dt` still holds `A`'s retired timestamp 100. -/
def stateH : RState :=
  { unpaid := [("B", 5)], reconciled := [txDepB, txPayA, txDepA],
    newest := 100 }

/-- C5 (counterexample). The horizon kept by the code is not the latest
timestamp among transactions currently contributing to unpaid receipts:
after `A`'s deposit (timestamp 100) is retired by an observed payout, only
`B`'s deposit (timestamp 50) still contributes, yet
`newest_transaction_dt` remains 100, so the payout decision is gated on a
retired transaction's timestamp. -/
theorem horizon_counterexample :
    reconcile regH "H" initialState histH 5 = .ok (stateH, false) ∧
    stateH.newest = 100 ∧
    specHorizon regH stateH.unpaid histH = 50 ∧ (100 : ℤ) ≠ 50 := by
  refine ⟨?_, rfl, ?_, by norm_num⟩
  · simp [reconcile, registryOk, regH, foldHist, foldTx, initialState,
      depositFrom, fromTruthy, wthdOwner, insertTx, bump, histH, txDepA,
      txPayA, txDepB, pruneUnpaid, sumUnpaid, stateH,
      show (7 : ℚ) + -7 = 0 from by norm_num,
      show ((5 : ℚ) ≤ 5) = True from by simp,
      show ((5 : ℚ) > 5) = False from by norm_num]
  · simp [specHorizon, regH, histH, txDepA, txPayA, txDepB, depositFrom,
      fromTruthy, stateH,
      show max (0 : ℤ) 50 = 50 from max_eq_right (by norm_num)]

theorem newDepositTs_cons (reg : Registry) (seen : List Transaction)
    (u : Transaction) (rest : List Transaction) :
    newDepositTs reg seen (u :: rest) =
      if u ∉ seen ∧ (depositFrom reg u).isSome = true then
        u.timestamp :: newDepositTs reg seen rest
      else newDepositTs reg seen rest := by
  by_cases h1 : u ∉ seen
  · by_cases h2 : (depositFrom reg u).isSome = true
    · rw [if_pos ⟨h1, h2⟩]
      simp [newDepositTs, List.filter_cons, h1, h2]
    · rw [if_neg (fun hc => h2 hc.2)]
      simp [newDepositTs, List.filter_cons, h2]
  · have hmem : u ∈ seen := not_not.mp h1
    rw [if_neg (fun hc => hc.1 hmem)]
    simp [newDepositTs, List.filter_cons, hmem]

theorem newDepositTs_cons_seen_nondeposit {reg : Registry} {t : Transaction}
    (h : depositFrom reg t = none) (seen rest : List Transaction) :
    newDepositTs reg (t :: seen) rest = newDepositTs reg seen rest := by
  unfold newDepositTs
  congr 1
  apply List.filter_congr
  intro u _
  by_cases hut : u = t
  · subst hut
    simp [h]
  · simp [List.mem_cons, hut]

theorem foldl_max_newDepositTs_insert (reg : Registry) (t : Transaction) :
    ∀ (rest seen : List Transaction) (A : ℤ), t.timestamp ≤ A →
      List.foldl max A (newDepositTs reg (t :: seen) rest) =
      List.foldl max A (newDepositTs reg seen rest) := by
  intro rest
  induction rest with
  | nil => intro seen A _; rfl
  | cons u rest ih =>
      intro seen A hA
      rw [newDepositTs_cons, newDepositTs_cons]
      by_cases hdep : (depositFrom reg u).isSome = true
      · by_cases hu1 : u ∈ t :: seen
        · rw [if_neg (fun hc => hc.1 hu1)]
          by_cases hus : u ∈ seen
          · rw [if_neg (fun hc => hc.1 hus)]
            exact ih seen A hA
          · have hut : u = t := by
              rcases List.mem_cons.mp hu1 with h | h
              · exact h
              · exact absurd h hus
            rw [if_pos ⟨hus, hdep⟩]
            simp only [List.foldl_cons]
            rw [hut, max_eq_left hA]
            exact ih seen A hA
        · have hu2 : u ∉ seen := fun hc => hu1 (List.mem_cons_of_mem _ hc)
          rw [if_pos ⟨hu1, hdep⟩, if_pos ⟨hu2, hdep⟩]
          simp only [List.foldl_cons]
          exact ih seen (max A u.timestamp) (le_trans hA (le_max_left _ _))
      · rw [if_neg (fun hc => hdep hc.2), if_neg (fun hc => hdep hc.2)]
        exact ih seen A hA

/-- C5 (amended). What the horizon actually is: after a successful fold,
`newest_transaction_dt` equals the running maximum of the starting horizon
and the timestamps of every newly folded deposit transaction from a known
receive address — whether or not its receipt is later retired by observed
payouts or pruning. It is monotone and never reset (its start value at
watcher birth is the Unix epoch). -/
theorem horizon_amended {reg : Registry} {house : AddrT} :
    ∀ {hist : List Transaction} {s s₂ : RState},
      foldHist reg house s hist = .ok s₂ →
      s₂.newest = List.foldl max s.newest (newDepositTs reg s.reconciled hist) := by
  intro hist
  induction hist with
  | nil =>
      intro s s₂ h
      rw [foldHist] at h
      obtain rfl := Except.ok.inj h
      rfl
  | cons t rest ih =>
      intro s s₂ h
      rw [foldHist] at h
      rcases h1 : foldTx reg house s t with e | s₁
      · rw [h1] at h; cases h
      · rw [h1] at h
        rcases foldTx_ok_cases h1 with ⟨hm, rfl⟩ | ⟨hm, hc | hc | hc⟩
        · rw [newDepositTs_cons, if_neg (fun hc => hc.1 hm)]
          exact ih h
        · obtain ⟨f, hf, hto, rfl⟩ := hc
          have hrec := ih h
          rw [newDepositTs_cons, if_pos ⟨hm, by simp [hf]⟩]
          simp only [List.foldl_cons]
          rw [hrec]
          exact foldl_max_newDepositTs_insert reg t rest s.reconciled _
            (le_max_right _ _)
        · obtain ⟨hdn, r, hw, hfrom, rfl⟩ := hc
          have hrec := ih h
          rw [newDepositTs_cons, if_neg (by simp [hdn])]
          rw [hrec]
          exact congrArg (List.foldl max s.newest)
            (newDepositTs_cons_seen_nondeposit hdn s.reconciled rest)
        · obtain ⟨hdn, hwn, rfl⟩ := hc
          have hrec := ih h
          rw [newDepositTs_cons, if_neg (by simp [hdn])]
          rw [hrec]
          exact congrArg (List.foldl max s.newest)
            (newDepositTs_cons_seen_nondeposit hdn s.reconciled rest)

/-- Witness for C5's amended statement at the concrete one-deposit history. -/
theorem horizon_amended_witness :
    state1.newest =
      List.foldl max initialState.newest
        (newDepositTs regW initialState.reconciled hist1) := by
  have h : foldHist regW "H" initialState hist1 = .ok state1 := by
    simp [hist1, foldHist, foldTx, initialState, depositFrom, fromTruthy,
      wthdOwner, insertTx, bump, regW, tx1, state1]
  exact horizon_amended h

end Jobcoin
